import Mathlib

/-!
Verification of the mask-editing engine of the butterfly segmentation
annotator (`segmentation_app/ui/paint_widget.py`,
`segmentation_app/core/data_manager.py`, `segmentation_app/ui/main_window.py`).

The mask is a `height x width` numpy `uint8` array indexed `mask[y, x]`.
We embed it as a structure carrying the two dimensions and a total pixel
function on integer coordinates; writes reduce modulo 256 to model the
`uint8` element type.  Floating point expressions of the source
(`i / steps` interpolation, `radius * cos(radians(angle))`) are embedded
as exact rational arithmetic; for the trigonometric ring-search offsets the
rational constants below are the exact values of the IEEE-754 doubles
`cos(radians(angle))` / `sin(radians(angle))`, and truncating the exact
rational product `r * c` agrees with the float computation for every
radius 1..50 used by the program.
-/

namespace Butterfly

/-- A segmentation mask: `w`/`h` are the raster dimensions, `px x y` the
class id stored at column `x`, row `y` (numpy `mask[y, x]`). -/
@[ext] structure Mask where
  w : Nat
  h : Nat
  px : Int → Int → Nat

/-- The bounds test `0 <= x < mask.shape[1] and 0 <= y < mask.shape[0]`. -/
def Mask.inB (m : Mask) (x y : Int) : Prop :=
  0 ≤ x ∧ x < (m.w : Int) ∧ 0 ≤ y ∧ y < (m.h : Int)

instance (m : Mask) (x y : Int) : Decidable (m.inB x y) := by
  unfold Mask.inB; exact inferInstance

/-- `mask[y, x] = v` on a `uint8` array: the stored byte is `v % 256`. -/
def Mask.set (m : Mask) (x y : Int) (v : Nat) : Mask :=
  { m with px := fun a b => if a = x ∧ b = y then v % 256 else m.px a b }

@[simp] lemma Mask.set_w (m : Mask) (x y : Int) (v : Nat) : (m.set x y v).w = m.w := rfl

@[simp] lemma Mask.set_h (m : Mask) (x y : Int) (v : Nat) : (m.set x y v).h = m.h := rfl

@[simp] lemma Mask.inB_set (m : Mask) (x y a b : Int) (v : Nat) :
    (m.set x y v).inB a b ↔ m.inB a b := Iff.rfl

lemma Mask.px_set (m : Mask) (x y a b : Int) (v : Nat) :
    (m.set x y v).px a b = if a = x ∧ b = y then v % 256 else m.px a b := rfl

@[simp] lemma Mask.px_set_same (m : Mask) (x y : Int) (v : Nat) :
    (m.set x y v).px x y = v % 256 := by simp [Mask.px_set]

lemma Mask.px_set_other (m : Mask) (x y a b : Int) (v : Nat)
    (h : ¬(a = x ∧ b = y)) : (m.set x y v).px a b = m.px a b := by
  simp [Mask.px_set, h]

/-! ## `draw_on_mask`: painting one brush stamp

`PaintWidget.draw_on_mask` iterates `dy` then `dx` over
`range(-radius, radius + 1)`, keeps the offsets with
`dx*dx + dy*dy <= radius*radius`, and writes the class id (or 0 in eraser
mode) at `(x + dx, y + dy)` whenever that cell is inside the raster. -/

/-- `range(-radius, radius + 1)` as a list of integers. -/
def offsets (r : Nat) : List Int :=
  List.map (fun i : Nat => (i : Int) - (r : Int)) (List.range (2 * r + 1))

/-- The `(dx, dy)` pairs visited by the two nested loops, `dy` outermost. -/
def discOffsets (r : Nat) : List (Int × Int) :=
  (offsets r).flatMap (fun dy => (offsets r).map (fun dx => (dx, dy)))

/-- Embedding of `PaintWidget.draw_on_mask` (the mask mutation; repaints and
the `mask_modified` signal have no effect on the mask).  `bs` is
`self.brush_size`, `cls` is `self.current_class`, and
`radius = self.brush_size // 2` is computed inside, as in the source. -/
def drawOnMask (m : Mask) (eraser : Bool) (cls bs : Nat) (x y : Int) : Mask :=
  let radius := bs / 2
  (discOffsets radius).foldl
    (fun acc p =>
      if p.1 * p.1 + p.2 * p.2 ≤ (radius : Int) * (radius : Int) then
        if acc.inB (x + p.1) (y + p.2) then
          acc.set (x + p.1) (y + p.2) (if eraser then 0 else cls)
        else acc
      else acc)
    m

lemma mem_offsets {r : Nat} {z : Int} :
    z ∈ offsets r ↔ -(r : Int) ≤ z ∧ z ≤ (r : Int) := by
  constructor
  · intro h
    obtain ⟨i, hi, hz⟩ := List.mem_map.1 h
    have hi2 := List.mem_range.1 hi
    omega
  · rintro ⟨h1, h2⟩
    exact List.mem_map.2 ⟨(z + r).toNat, List.mem_range.2 (by omega), by omega⟩

lemma mem_discOffsets {r : Nat} {p : Int × Int} :
    p ∈ discOffsets r ↔
      (-(r : Int) ≤ p.1 ∧ p.1 ≤ (r : Int)) ∧ (-(r : Int) ≤ p.2 ∧ p.2 ≤ (r : Int)) := by
  cases p with
  | mk dx dy =>
    simp only [discOffsets, List.mem_flatMap, List.mem_map]
    constructor
    · rintro ⟨dy0, hdy, dx0, hdx, h⟩
      cases h
      exact ⟨mem_offsets.1 hdx, mem_offsets.1 hdy⟩
    · rintro ⟨h1, h2⟩
      exact ⟨dy, mem_offsets.2 h2, dx, mem_offsets.2 h1, rfl⟩

lemma Int.abs_le_of_mul_self_le {z r : Int} (hr : 0 ≤ r) (h : z * z ≤ r * r) :
    -r ≤ z ∧ z ≤ r := by
  constructor <;> nlinarith [sq_nonneg (z - r), sq_nonneg (z + r)]

section DrawFold

variable (v : Nat) (r : Nat) (x y : Int)

/-- One write step of the `draw_on_mask` loops. -/
private def stampStep (v : Nat) (r : Nat) (x y : Int) (acc : Mask) (p : Int × Int) : Mask :=
  if p.1 * p.1 + p.2 * p.2 ≤ (r : Int) * (r : Int) then
    if acc.inB (x + p.1) (y + p.2) then acc.set (x + p.1) (y + p.2) v
    else acc
  else acc

lemma stampStep_w (acc : Mask) (p : Int × Int) : (stampStep v r x y acc p).w = acc.w := by
  unfold stampStep; split <;> [skip; rfl]; split <;> rfl

lemma stampStep_h (acc : Mask) (p : Int × Int) : (stampStep v r x y acc p).h = acc.h := by
  unfold stampStep; split <;> [skip; rfl]; split <;> rfl

lemma foldl_stampStep_w (L : List (Int × Int)) (m : Mask) :
    (L.foldl (stampStep v r x y) m).w = m.w := by
  induction L generalizing m with
  | nil => rfl
  | cons p L ih => simpa [List.foldl_cons, stampStep_w] using ih (stampStep v r x y m p)

lemma foldl_stampStep_h (L : List (Int × Int)) (m : Mask) :
    (L.foldl (stampStep v r x y) m).h = m.h := by
  induction L generalizing m with
  | nil => rfl
  | cons p L ih => simpa [List.foldl_cons, stampStep_h] using ih (stampStep v r x y m p)

/-- Pointwise effect of folding the stamp writes over an offset list:
a cell receives `v % 256` exactly when some visited offset targets it,
satisfies the disc inequality, and the cell is inside the raster. -/
lemma foldl_stampStep_px (L : List (Int × Int)) (m : Mask) (a b : Int) :
    (L.foldl (stampStep v r x y) m).px a b =
      if ∃ p ∈ L, p.1 * p.1 + p.2 * p.2 ≤ (r : Int) * (r : Int) ∧
          x + p.1 = a ∧ y + p.2 = b ∧ m.inB a b then v % 256
      else m.px a b := by
  induction L generalizing m with
  | nil => simp
  | cons p L ih =>
    have hw : (stampStep v r x y m p).w = m.w := stampStep_w v r x y m p
    have hh : (stampStep v r x y m p).h = m.h := stampStep_h v r x y m p
    have hinB : ∀ a b : Int, (stampStep v r x y m p).inB a b ↔ m.inB a b := by
      intro a b; unfold Mask.inB; rw [hw, hh]
    rw [List.foldl_cons, ih]
    by_cases hdisc : p.1 * p.1 + p.2 * p.2 ≤ (r : Int) * (r : Int)
    · by_cases hbnd : m.inB (x + p.1) (y + p.2)
      · have hstep : stampStep v r x y m p = m.set (x + p.1) (y + p.2) v := by
          unfold stampStep; rw [if_pos hdisc, if_pos hbnd]
        rw [hstep]
        by_cases htar : x + p.1 = a ∧ y + p.2 = b
        · obtain ⟨h1, h2⟩ := htar
          have hab : m.inB a b := by rw [← h1, ← h2]; exact hbnd
          have hexists : ∃ q ∈ p :: L, q.1 * q.1 + q.2 * q.2 ≤ (r : Int) * (r : Int) ∧
              x + q.1 = a ∧ y + q.2 = b ∧ m.inB a b :=
            ⟨p, List.mem_cons_self _ _, hdisc, h1, h2, hab⟩
          rw [if_pos hexists]
          split
          · rfl
          · rw [h1, h2]; simp [Mask.px_set]
        · have heq : (∃ q ∈ L, q.1 * q.1 + q.2 * q.2 ≤ (r : Int) * (r : Int) ∧
              x + q.1 = a ∧ y + q.2 = b ∧ (m.set (x + p.1) (y + p.2) v).inB a b) ↔
              (∃ q ∈ p :: L, q.1 * q.1 + q.2 * q.2 ≤ (r : Int) * (r : Int) ∧
              x + q.1 = a ∧ y + q.2 = b ∧ m.inB a b) := by
            constructor
            · rintro ⟨q, hq, h1, h2, h3, h4⟩
              exact ⟨q, List.mem_cons_of_mem _ hq, h1, h2, h3, (Mask.inB_set _ _ _ _ _ _).1 h4⟩
            · rintro ⟨q, hq, h1, h2, h3, h4⟩
              rcases List.mem_cons.1 hq with hq' | hq'
              · subst hq'; exact absurd ⟨h2, h3⟩ htar
              · exact ⟨q, hq', h1, h2, h3, (Mask.inB_set _ _ _ _ _ _).2 h4⟩
          simp only [heq]
          split
          · rfl
          · exact Mask.px_set_other m _ _ a b v (fun hc => htar ⟨hc.1.symm, hc.2.symm⟩)
      · have hstep : stampStep v r x y m p = m := by
          unfold stampStep; rw [if_pos hdisc, if_neg hbnd]
        rw [hstep]
        congr 1
        simp only [eq_iff_iff]
        constructor
        · rintro ⟨q, hq, h1, h2, h3, h4⟩
          exact ⟨q, List.mem_cons_of_mem _ hq, h1, h2, h3, h4⟩
        · rintro ⟨q, hq, h1, h2, h3, h4⟩
          rcases List.mem_cons.1 hq with hq' | hq'
          · subst hq'
            rw [h2, h3] at hbnd
            exact absurd h4 hbnd
          · exact ⟨q, hq', h1, h2, h3, h4⟩
    · have hstep : stampStep v r x y m p = m := by
        unfold stampStep; rw [if_neg hdisc]
      rw [hstep]
      congr 1
      simp only [eq_iff_iff]
      constructor
      · rintro ⟨q, hq, h1, h2, h3, h4⟩
        exact ⟨q, List.mem_cons_of_mem _ hq, h1, h2, h3, h4⟩
      · rintro ⟨q, hq, h1, h2, h3, h4⟩
        rcases List.mem_cons.1 hq with hq' | hq'
        · subst hq'; exact absurd h1 hdisc
        · exact ⟨q, hq', h1, h2, h3, h4⟩

end DrawFold

lemma drawOnMask_eq_fold (m : Mask) (eraser : Bool) (cls bs : Nat) (x y : Int) :
    drawOnMask m eraser cls bs x y =
      (discOffsets (bs / 2)).foldl (stampStep (if eraser then 0 else cls) (bs / 2) x y) m := rfl

/-- Pointwise description of one brush stamp, with `r = bs / 2`. -/
lemma drawOnMask_px (m : Mask) (eraser : Bool) (cls bs : Nat) (x y a b : Int) :
    (drawOnMask m eraser cls bs x y).px a b =
      if m.inB a b ∧
          (a - x) * (a - x) + (b - y) * (b - y) ≤ ((bs / 2 : Nat) : Int) * ((bs / 2 : Nat) : Int) then
        (if eraser then 0 else cls) % 256
      else m.px a b := by
  rw [drawOnMask_eq_fold, foldl_stampStep_px]
  congr 1
  simp only [eq_iff_iff]
  constructor
  · rintro ⟨p, hp, h1, h2, h3, h4⟩
    refine ⟨h4, ?_⟩
    have e1 : a - x = p.1 := by omega
    have e2 : b - y = p.2 := by omega
    rw [e1, e2]; exact h1
  · rintro ⟨hab, hdisc⟩
    refine ⟨(a - x, b - y), ?_, by simpa using hdisc, by ring, by ring, hab⟩
    have h1 := Int.abs_le_of_mul_self_le (by positivity)
      (le_trans (le_add_of_nonneg_right (mul_self_nonneg _)) hdisc)
    have h2 := Int.abs_le_of_mul_self_le (by positivity)
      (le_trans (le_add_of_nonneg_left (mul_self_nonneg _)) hdisc)
    exact mem_discOffsets.2 ⟨h1, h2⟩

lemma drawOnMask_w (m : Mask) (eraser : Bool) (cls bs : Nat) (x y : Int) :
    (drawOnMask m eraser cls bs x y).w = m.w := by
  rw [drawOnMask_eq_fold]; exact foldl_stampStep_w _ _ _ _ _ m

lemma drawOnMask_h (m : Mask) (eraser : Bool) (cls bs : Nat) (x y : Int) :
    (drawOnMask m eraser cls bs x y).h = m.h := by
  rw [drawOnMask_eq_fold]; exact foldl_stampStep_h _ _ _ _ _ m

/-- The all-background mask of a given size. -/
def zeroMask (w h : Nat) : Mask := ⟨w, h, fun _ _ => 0⟩

/-- C1: painting a point in paint mode with brush size `bs` (radius
`bs // 2`) sets exactly the in-raster cells of the disc
`dx*dx + dy*dy ≤ r*r` around the (in-bounds) center to the class id and
leaves every other cell — outside the disc, or outside the raster —
unchanged; out-of-raster disc cells are silently skipped. -/
theorem C1_paint_point_disc (m : Mask) (x y : Int) (bs cls : Nat)
    (hin : m.inB x y) (hcls : cls < 256) (a b : Int) :
    (drawOnMask m false cls bs x y).px a b =
      if m.inB a b ∧
          (a - x) * (a - x) + (b - y) * (b - y) ≤ ((bs / 2 : Nat) : Int) * ((bs / 2 : Nat) : Int) then
        cls
      else m.px a b := by
  rw [drawOnMask_px]
  simp only [Bool.false_eq_true, if_false, Nat.mod_eq_of_lt hcls]

/-- Witness for C1 at a concrete instance: a 3×3 zero mask, center (1,1),
brush size 2 (radius 1), class 1; the center cell is painted. -/
theorem C1_paint_point_disc_witness :
    (zeroMask 3 3).inB 1 1 ∧ 1 < 256 ∧
      (drawOnMask (zeroMask 3 3) false 1 2 1 1).px 1 1 = 1 := by
  refine ⟨by decide, by decide, ?_⟩
  rw [C1_paint_point_disc (zeroMask 3 3) 1 1 2 1 (by decide) (by decide) 1 1]
  decide

/-! ## `draw_line`

`PaintWidget.draw_line` computes `steps = max(|dx|, |dy|)`; when
`steps == 0` it returns immediately (painting nothing), otherwise it calls
`draw_on_mask` at `steps + 1` linearly interpolated points.  The float
expression `int(start + (i/steps) * delta)` is embedded as truncated exact
rational arithmetic. -/

/-- Python `int()` on a rational value: truncation toward zero. -/
def truncQ (q : ℚ) : Int := if q < 0 then -⌊-q⌋ else ⌊q⌋

def drawLine (m : Mask) (x0 y0 x1 y1 : Int) (eraser : Bool) (cls bs : Nat) : Mask :=
  let steps : Nat := max (x1 - x0).natAbs (y1 - y0).natAbs
  if steps = 0 then m
  else
    (List.range (steps + 1)).foldl
      (fun acc i =>
        let t : ℚ := (i : ℚ) / (steps : ℚ)
        let xi : Int := truncQ ((x0 : ℚ) + t * ((x1 : ℚ) - (x0 : ℚ)))
        let yi : Int := truncQ ((y0 : ℚ) + t * ((y1 : ℚ) - (y0 : ℚ)))
        drawOnMask acc eraser cls bs xi yi)
      m

/-- C5 counterexample: on a 3×3 zero mask with brush size 2 and class 1,
a zero-length line at (1,1) leaves the center cell at 0 while
`draw_on_mask` at (1,1) paints it to 1 — the two disagree. -/
theorem C5_cx :
    (drawLine (zeroMask 3 3) 1 1 1 1 false 1 2).px 1 1 ≠
      (drawOnMask (zeroMask 3 3) false 1 2 1 1).px 1 1 := by
  decide

/-- C5 amended: a zero-length `draw_line` (equal endpoints, hence
`steps = 0`) is a no-op: it returns the mask unchanged rather than
degenerating to a single `paint_point` (the press-point stamp is issued
separately by `mousePressEvent`). -/
theorem C5_zero_length_line_noop (m : Mask) (x y : Int) (eraser : Bool) (cls bs : Nat) :
    drawLine m x y x y eraser cls bs = m := by
  simp [drawLine, sub_self]

/-! ## Undo history

`save_mask_state` appends a copy of the current mask and drops the front
entry when the length exceeds `max_history = 50`; `undo` pops the most
recent entry. -/

def maxHistory : Nat := 50

/-- `PaintWidget.save_mask_state` (with a mask loaded): append a copy of
the current mask (`h2` is the appended history), then `pop(0)` the oldest
entry when the length exceeds `max_history`. -/
def saveMaskState (hist : List Mask) (m : Mask) : List Mask :=
  if maxHistory < (hist ++ [m]).length then (hist ++ [m]).drop 1 else hist ++ [m]

/-- `PaintWidget.undo` (with a mask loaded): pop the most recent snapshot,
returning the restored mask and the remaining history (`none` when the
history is empty, in which case `undo` returns `False` and changes
nothing). -/
def undoPop (hist : List Mask) : Option (Mask × List Mask) :=
  match hist.getLast? with
  | none => none
  | some m => some (m, hist.dropLast)

lemma saveMaskState_length (hist : List Mask) (m : Mask) :
    (saveMaskState hist m).length =
      if maxHistory < hist.length + 1 then hist.length else hist.length + 1 := by
  unfold saveMaskState
  have hlen : (hist ++ [m]).length = hist.length + 1 := by simp
  rw [hlen]
  split
  · rw [List.length_drop, hlen]
    omega
  · exact hlen

lemma foldl_save_length_le (l : List Mask) :
    ∀ hist : List Mask, hist.length ≤ maxHistory →
      (l.foldl saveMaskState hist).length ≤ maxHistory := by
  induction l with
  | nil => intro hist h; simpa using h
  | cons m l ih =>
    intro hist h
    rw [List.foldl_cons]
    refine ih _ ?_
    rw [saveMaskState_length]
    split <;> omega

lemma foldl_save_overflow (l : List Mask) :
    ∀ hist : List Mask, hist.length ≤ maxHistory →
      hist.length + l.length ≤ maxHistory + 1 →
      l.foldl saveMaskState hist = (hist ++ l).drop (hist.length + l.length - maxHistory) := by
  induction l with
  | nil =>
    intro hist h1 _h2
    have h0 : hist.length + ([] : List Mask).length - maxHistory = 0 := by
      simp only [List.length_nil, Nat.add_zero]
      omega
    rw [List.foldl_nil, h0, List.drop_zero, List.append_nil]
  | cons m l ih =>
    intro hist h1 h2
    rw [List.foldl_cons]
    by_cases hlen : hist.length + 1 ≤ maxHistory
    · have hstep : saveMaskState hist m = hist ++ [m] := by
        unfold saveMaskState
        rw [if_neg (by simp; omega)]
      rw [hstep, ih (hist ++ [m]) (by simp; omega) (by simp at h2 ⊢; omega)]
      simp only [List.length_append, List.length_cons, List.length_nil, List.append_assoc,
        List.cons_append, List.nil_append]
      congr 1
      omega
    · have hl0 : hist.length = maxHistory := by omega
      have hnil : l = [] := by
        have := h2
        simp only [List.length_cons] at this
        have : l.length = 0 := by omega
        exact List.length_eq_zero.1 this
      subst hnil
      have hstep : saveMaskState hist m = (hist ++ [m]).drop 1 := by
        unfold saveMaskState
        rw [if_pos (by simp; omega)]
      rw [List.foldl_nil, hstep]
      congr 1
      simp only [List.length_cons, List.length_nil]
      omega

lemma getLast?_saveMaskState (hist : List Mask) (m : Mask) :
    (saveMaskState hist m).getLast? = some m := by
  unfold saveMaskState
  split
  · rename_i hlen
    have h1 : 1 ≤ hist.length := by
      simp only [List.length_append, List.length_cons, List.length_nil] at hlen
      unfold maxHistory at hlen
      omega
    rw [List.drop_append_of_le_length h1]
    exact List.getLast?_concat _
  · exact List.getLast?_concat _

/-- C4: (a) any sequence of pushes starting from the empty history leaves
at most `max_history = 50` entries; (b) pushing 51 snapshots onto the
empty history leaves exactly the last 50 — the earliest snapshot is
evicted from the front; (c) undo after a push always restores the pushed
(most recent) snapshot and removes it from the history. -/
theorem C4_history_capacity :
    (∀ l : List Mask, (l.foldl saveMaskState []).length ≤ maxHistory) ∧
    (∀ l : List Mask, l.length = maxHistory + 1 → l.foldl saveMaskState [] = l.drop 1) ∧
    (∀ (hist : List Mask) (m : Mask),
      undoPop (saveMaskState hist m) = some (m, (saveMaskState hist m).dropLast)) := by
  refine ⟨fun l => foldl_save_length_le l [] (by simp), fun l hl => ?_, fun hist m => ?_⟩
  · have := foldl_save_overflow l [] (by simp) (by simp [hl])
    simpa [hl] using this
  · unfold undoPop
    rw [getLast?_saveMaskState]

/-- Witness for C4: pushing 51 copies of the 1×1 zero mask onto the empty
history leaves 50 entries, and undo after a push restores that push. -/
theorem C4_history_capacity_witness :
    ((List.replicate 51 (zeroMask 1 1)).foldl saveMaskState []).length ≤ maxHistory ∧
    (List.replicate 51 (zeroMask 1 1)).length = maxHistory + 1 ∧
    (List.replicate 51 (zeroMask 1 1)).foldl saveMaskState [] =
      (List.replicate 51 (zeroMask 1 1)).drop 1 ∧
    undoPop (saveMaskState [] (zeroMask 1 1)) =
      some (zeroMask 1 1, (saveMaskState [] (zeroMask 1 1)).dropLast) := by
  refine ⟨C4_history_capacity.1 _, by simp [maxHistory], ?_, C4_history_capacity.2.2 [] _⟩
  exact C4_history_capacity.2.1 _ (by simp [maxHistory])

/-! ## Zoom and coordinate conversion

`set_zoom` clamps into `[min_zoom, max_zoom] = [0.1, 10.0]`;
`screen_to_image_coords` divides by the zoom factor and truncates with
`int()` (float division embedded as exact rational division). -/

def minZoom : ℚ := 1 / 10

def maxZoom : ℚ := 10

/-- `PaintWidget.set_zoom`: `max(min_zoom, min(max_zoom, z))`. -/
def setZoom (z : ℚ) : ℚ := max minZoom (min maxZoom z)

/-- `PaintWidget.screen_to_image_coords`: `int(p / zoom_factor)`
componentwise, with the `zoom_factor == 0` guard returning the point
unchanged. -/
def screenToImage (px py : Int) (zf : ℚ) : Int × Int :=
  if zf = 0 then (px, py)
  else (truncQ ((px : ℚ) / zf), truncQ ((py : ℚ) / zf))

lemma truncQ_of_nonneg {q : ℚ} (h : 0 ≤ q) : truncQ q = ⌊q⌋ := by
  unfold truncQ
  rw [if_neg (not_lt.2 h)]

/-- C9 counterexample: at screen point (-3, 0) with view zoom
`set_zoom(2) = 2`, the conversion returns `int(-3/2) = -1`, not
`floor(-3/2) = -2`. -/
theorem C9_cx :
    (screenToImage (-3) 0 (setZoom 2)).1 ≠ ⌊((-3 : Int) : ℚ) / setZoom 2⌋ := by
  have hz : setZoom 2 = 2 := by
    unfold setZoom minZoom maxZoom
    rw [min_eq_right (by norm_num), max_eq_right (by norm_num)]
  rw [hz]
  unfold screenToImage truncQ
  norm_num [Int.floor_eq_iff]

/-- C9 amended: for zoom factors in the clamped range `[min_zoom, max_zoom]`
(so strictly positive — no division by zero), the conversion is
`trunc(p / zoom)` componentwise, which agrees with `floor(p / zoom)` for
nonnegative screen coordinates; and `set_zoom` clamps every request into
`[min_zoom, max_zoom]`, leaving in-range requests unchanged. -/
theorem C9_screen_to_raster (p q : Int) (zf : ℚ)
    (hp : 0 ≤ p) (hq : 0 ≤ q) (hz1 : minZoom ≤ zf) (hz2 : zf ≤ maxZoom) :
    screenToImage p q zf = (⌊(p : ℚ) / zf⌋, ⌊(q : ℚ) / zf⌋) ∧
    (∀ z : ℚ, minZoom ≤ setZoom z ∧ setZoom z ≤ maxZoom) ∧
    setZoom zf = zf := by
  have hzpos : 0 < zf := lt_of_lt_of_le (by norm_num [minZoom]) hz1
  refine ⟨?_, fun z => ⟨le_max_left _ _, ?_⟩, ?_⟩
  · unfold screenToImage
    rw [if_neg (ne_of_gt hzpos)]
    rw [truncQ_of_nonneg (div_nonneg (by exact_mod_cast hp) hzpos.le),
      truncQ_of_nonneg (div_nonneg (by exact_mod_cast hq) hzpos.le)]
  · exact max_le (by norm_num [minZoom, maxZoom]) (min_le_left _ _)
  · unfold setZoom
    rw [min_eq_right hz2, max_eq_right hz1]

/-! ## RGB mask encoding and decoding

`DataManager.save_rgb_mask` paints each palette class color onto an
initially black `uint8` RGB image; `SegmentationTool.load_existing_mask`
builds a `color -> class` table (background `(0,0,0) -> 0` first, then the
nonzero class entries) and maps each pixel through it, leaving unmatched
colors at background 0.  The palette is a dict in the source, so its class
ids are unique by construction; the inverse table is a dict keyed by
color, which coincides with the association list below when the class
colors are pairwise distinct (the round-trip hypotheses). -/

/-- An RGB triple. -/
abbrev Color := Nat × Nat × Nat

/-- An RGB image of `uint8` triples. -/
structure Img where
  w : Nat
  h : Nat
  px : Int → Int → Color

/-- Storage of an RGB triple in a `uint8` array. -/
def mod3 (c : Color) : Color := (c.1 % 256, c.2.1 % 256, c.2.2 % 256)

/-- All components of a color fit in a byte. -/
def colorOK (c : Color) : Prop := c.1 < 256 ∧ c.2.1 < 256 ∧ c.2.2 < 256

lemma mod3_eq_self {c : Color} (h : colorOK c) : mod3 c = c := by
  obtain ⟨h1, h2, h3⟩ := h
  unfold mod3
  rw [Nat.mod_eq_of_lt h1, Nat.mod_eq_of_lt h2, Nat.mod_eq_of_lt h3]

/-- `DataManager.save_rgb_mask`: start from black and, for each palette
entry in order, write its color over the pixels holding its class id. -/
def encodeMask (m : Mask) (pal : List (Nat × Color)) : Img :=
  pal.foldl
    (fun img e =>
      { img with px := fun a b => if m.px a b = e.1 then mod3 e.2 else img.px a b })
    ⟨m.w, m.h, fun _ _ => (0, 0, 0)⟩

/-- The `color_to_class` table of `load_existing_mask`: background first,
then one entry per (nonzero-class) palette entry. -/
def decodeTable (pal : List (Nat × Color)) : List (Color × Nat) :=
  ((0, 0, 0), 0) :: pal.map (fun e => (e.2, e.1))

/-- `load_existing_mask` (RGB branch): start from an all-zero class mask
and, for each table entry in order, write its class id over the pixels
whose color matches. -/
def decodeImg (img : Img) (pal : List (Nat × Color)) : Mask :=
  (decodeTable pal).foldl
    (fun msk e =>
      { msk with px := fun a b => if img.px a b = e.1 then e.2 % 256 else msk.px a b })
    ⟨img.w, img.h, fun _ _ => 0⟩

/-- Scalar version of the encoding fold at a single pixel. -/
def encodePix (c : Nat) (pal : List (Nat × Color)) : Color :=
  pal.foldl (fun acc e => if c = e.1 then mod3 e.2 else acc) (0, 0, 0)

/-- Scalar version of the decoding fold at a single pixel. -/
def decodePix (col : Color) (T : List (Color × Nat)) : Nat :=
  T.foldl (fun acc e => if col = e.1 then e.2 % 256 else acc) 0

lemma encodeMask_px (m : Mask) (pal : List (Nat × Color)) (a b : Int) :
    (encodeMask m pal).px a b = encodePix (m.px a b) pal := by
  unfold encodeMask encodePix
  generalize hini : (⟨m.w, m.h, fun _ _ => ((0 : Nat), (0 : Nat), (0 : Nat))⟩ : Img) = img0
  have hpx : img0.px a b = (0, 0, 0) := by rw [← hini]
  rw [← hpx]
  clear hini hpx
  induction pal generalizing img0 with
  | nil => rfl
  | cons e pal ih =>
    rw [List.foldl_cons, List.foldl_cons, ih]

lemma decodeImg_px (img : Img) (pal : List (Nat × Color)) (a b : Int) :
    (decodeImg img pal).px a b = decodePix (img.px a b) (decodeTable pal) := by
  unfold decodeImg decodePix
  generalize hT : decodeTable pal = T
  generalize hini : (⟨img.w, img.h, fun _ _ => (0 : Nat)⟩ : Mask) = m0
  have hpx : m0.px a b = 0 := by rw [← hini]
  rw [← hpx]
  clear hini hpx hT
  induction T generalizing m0 with
  | nil => rfl
  | cons e T ih =>
    rw [List.foldl_cons, List.foldl_cons, ih]

/-- An overwrite fold whose every matching element writes the same value
`v` evaluates to `v` when a match exists and to the initial value
otherwise. -/
lemma foldl_overwrite_eq {α β : Type} (P : α → Prop) [DecidablePred P] (g : α → β)
    (v : β) (T : List α) :
    ∀ init : β, (∀ e ∈ T, P e → g e = v) →
      T.foldl (fun acc e => if P e then g e else acc) init =
        if ∃ e ∈ T, P e then v else init := by
  induction T with
  | nil => intro init hv; simp
  | cons e T ih =>
    intro init hv
    rw [List.foldl_cons]
    by_cases hPe : P e
    · rw [if_pos hPe, ih (g e) (fun q hq hPq => hv q (List.mem_cons_of_mem _ hq) hPq)]
      rw [hv e (List.mem_cons_self _ _) hPe]
      rw [if_pos (show ∃ q ∈ e :: T, P q from ⟨e, List.mem_cons_self _ _, hPe⟩)]
      split <;> rfl
    · rw [if_neg hPe, ih init (fun q hq hPq => hv q (List.mem_cons_of_mem _ hq) hPq)]
      congr 1
      simp only [eq_iff_iff]
      constructor
      · rintro ⟨q, hq, hPq⟩
        exact ⟨q, List.mem_cons_of_mem _ hq, hPq⟩
      · rintro ⟨q, hq, hPq⟩
        rcases List.mem_cons.1 hq with hq2 | hq2
        · exact absurd (hq2 ▸ hPq) hPe
        · exact ⟨q, hq2, hPq⟩

/-- C2: with pairwise-distinct byte-range class colors (all different from
background black), unique class ids, and every class occurring in the
(byte-valued) mask present in the palette, decoding the encoded RGB image
restores the mask exactly; and any pixel whose color matches no table
entry decodes to background 0. -/
theorem C2_rgb_roundtrip (m : Mask) (pal : List (Nat × Color))
    (hids : ∀ e ∈ pal, e.1 ≠ 0 ∧ e.1 < 256)
    (hcols : ∀ e ∈ pal, e.2 ≠ ((0, 0, 0) : Color) ∧ colorOK e.2)
    (hidnd : (pal.map Prod.fst).Nodup)
    (hcolnd : (pal.map Prod.snd).Nodup)
    (hcover : ∀ a b : Int, m.px a b ≠ 0 → ∃ e ∈ pal, e.1 = m.px a b) :
    (∀ a b : Int, (decodeImg (encodeMask m pal) pal).px a b = m.px a b) ∧
    (∀ (img : Img) (a b : Int),
      (∀ e ∈ decodeTable pal, img.px a b ≠ e.1) → (decodeImg img pal).px a b = 0) := by
  constructor
  · intro a b
    rw [decodeImg_px, encodeMask_px]
    by_cases hc : m.px a b = 0
    · have henc : encodePix (m.px a b) pal = (0, 0, 0) := by
        unfold encodePix
        rw [foldl_overwrite_eq (fun e => m.px a b = e.1) _ ((0 : Nat), (0 : Nat), (0 : Nat)) pal
          _ (fun e he hPe => absurd (hc ▸ hPe.symm) (hids e he).1)]
        rw [if_neg]
        rintro ⟨e, he, hPe⟩
        exact (hids e he).1 (hc ▸ hPe.symm)
      rw [henc]
      unfold decodePix
      rw [foldl_overwrite_eq (fun e => ((0 : Nat), (0 : Nat), (0 : Nat)) = e.1) _ 0
        (decodeTable pal) _ ?_]
      · rw [if_pos ⟨((0, 0, 0), 0), List.mem_cons_self _ _, rfl⟩, hc]
      · rintro e he hPe
        rcases List.mem_cons.1 he with he2 | he2
        · rw [he2]
          rfl
        · obtain ⟨q, hq, hqe⟩ := List.mem_map.1 he2
          exfalso
          exact (hcols q hq).1 (by rw [← hqe] at hPe; exact hPe.symm)
    · obtain ⟨e0, he0, he0c⟩ := hcover a b hc
      have hinj := List.inj_on_of_nodup_map hidnd
      have henc : encodePix (m.px a b) pal = mod3 e0.2 := by
        unfold encodePix
        rw [foldl_overwrite_eq (fun e => m.px a b = e.1) _ (mod3 e0.2) pal _ ?_]
        · rw [if_pos ⟨e0, he0, he0c.symm⟩]
        · intro e he hPe
          have : e = e0 := hinj he he0 (by rw [← hPe, he0c])
          rw [this]
      rw [henc, mod3_eq_self (hcols e0 he0).2]
      have hcinj := List.inj_on_of_nodup_map hcolnd
      unfold decodePix
      rw [foldl_overwrite_eq (fun e => e0.2 = e.1) _ (e0.1 % 256) (decodeTable pal) _ ?_]
      · rw [if_pos ?_, Nat.mod_eq_of_lt (hids e0 he0).2, he0c]
        exact ⟨(e0.2, e0.1), List.mem_cons_of_mem _ (List.mem_map.2 ⟨e0, he0, rfl⟩), rfl⟩
      · intro e he hPe
        rcases List.mem_cons.1 he with he2 | he2
        · exfalso
          exact (hcols e0 he0).1 (by rw [he2] at hPe; exact hPe)
        · obtain ⟨q, hq, hqe⟩ := List.mem_map.1 he2
          have hq0 : q = e0 := hcinj hq he0 (by rw [← hqe] at hPe; exact hPe.symm)
          rw [← hqe, hq0]
  · intro img a b hnone
    rw [decodeImg_px]
    unfold decodePix
    rw [foldl_overwrite_eq (fun e => img.px a b = e.1) _ 0 (decodeTable pal) _
      (fun e he hPe => absurd hPe (hnone e he))]
    rw [if_neg]
    rintro ⟨e, he, hPe⟩
    exact hnone e he hPe

/-- Witness for C2 on a concrete 2×2-style mask (constant class 1) and the
one-entry palette mapping class 1 to red. -/
theorem C2_rgb_roundtrip_witness :
    (decodeImg (encodeMask (Mask.mk 2 2 fun _ _ => 1) [(1, (255, 0, 0))]) [(1, (255, 0, 0))]).px 0 0 =
      (Mask.mk 2 2 fun _ _ => 1).px 0 0 := by
  exact (C2_rgb_roundtrip (Mask.mk 2 2 fun _ _ => 1) [(1, (255, 0, 0))]
    (by intro e he; rw [List.mem_singleton] at he; rw [he]; exact ⟨by decide, by decide⟩)
    (by intro e he; rw [List.mem_singleton] at he; rw [he]; exact ⟨by decide, by decide, by decide, by decide⟩)
    (by decide) (by decide)
    (fun a b h => ⟨(1, (255, 0, 0)), List.mem_singleton.2 rfl, rfl⟩)).1 0 0

/-- Witness for C9 amended at screen point (5, 0), zoom 2. -/
theorem C9_screen_to_raster_witness :
    (0 : Int) ≤ 5 ∧ minZoom ≤ (2 : ℚ) ∧ (2 : ℚ) ≤ maxZoom ∧
      screenToImage 5 0 2 = (⌊((5 : Int) : ℚ) / 2⌋, ⌊((0 : Int) : ℚ) / 2⌋) := by
  refine ⟨by decide, by norm_num [minZoom], by norm_num [maxZoom], ?_⟩
  exact (C9_screen_to_raster 5 0 2 (by decide) (by decide)
    (by norm_num [minZoom]) (by norm_num [maxZoom])).1

/-! ## Flood fill

`PaintWidget.flood_fill`: bounds check, self-snapshot
(`save_mask_state`), ring search for a background reseed when the seed
already holds the target class, then a stack-based fill capped at
`max_fill_pixels = 100000` pixels, returning `True` iff any pixel was
filled.

The ring search offsets are `int(radius * cos(radians(angle)))` computed
in IEEE-754 double precision.  The doubles `cos(radians(angle))` /
`sin(radians(angle))` are exact dyadic rationals; `cosNum a / cosDen a`
and `sinNum a / sinDen a` below are those exact values, and truncating
the exact rational product `radius * (num / den)` (computed here as
`Int.tdiv`, truncation toward zero, on `radius * num` and `den`)
coincides with the source's float computation for every radius 1..50 it
can use. -/

/-- Numerator of the exact value of the double `cos(radians(angle))`. -/
def cosNum : Nat → Int
  | 0 => 1
  | 15 => 8700286382685973
  | 30 => 7800463371553963
  | 45 => 6369051672525773
  | 60 => 4503599627370497
  | 75 => 291404338770025
  | 90 => 4967757600021511
  | 105 => -2331234710160201
  | 120 => -2251799813685247
  | 135 => -1592262918131443
  | 150 => -7800463371553963
  | 165 => -2175071595671493
  | 180 => -1
  | 195 => -8700286382685973
  | 210 => -3900231685776981
  | 225 => -3184525836262887
  | 240 => -1125899906842625
  | 255 => -2331234710160199
  | 270 => -3725818200016133
  | 285 => 582808677540049
  | 300 => 4503599627370497
  | 315 => 6369051672525771
  | 330 => 975057921444245
  | 345 => 8700286382685973
  | _ => 0

/-- Denominator of the exact value of the double `cos(radians(angle))`. -/
def cosDen : Nat → Int
  | 0 => 1
  | 15 => 9007199254740992
  | 30 => 9007199254740992
  | 45 => 9007199254740992
  | 60 => 9007199254740992
  | 75 => 1125899906842624
  | 90 => 81129638414606681695789005144064
  | 105 => 9007199254740992
  | 120 => 4503599627370496
  | 135 => 2251799813685248
  | 150 => 9007199254740992
  | 165 => 2251799813685248
  | 180 => 1
  | 195 => 9007199254740992
  | 210 => 4503599627370496
  | 225 => 4503599627370496
  | 240 => 2251799813685248
  | 255 => 9007199254740992
  | 270 => 20282409603651670423947251286016
  | 285 => 2251799813685248
  | 300 => 9007199254740992
  | 315 => 9007199254740992
  | 330 => 1125899906842624
  | 345 => 9007199254740992
  | _ => 1

/-- Numerator of the exact value of the double `sin(radians(angle))`. -/
def sinNum : Nat → Int
  | 0 => 0
  | 15 => 291404338770025
  | 30 => 9007199254740991
  | 45 => 1592262918131443
  | 60 => 3900231685776981
  | 75 => 8700286382685973
  | 90 => 1
  | 105 => 8700286382685973
  | 120 => 7800463371553963
  | 135 => 6369051672525773
  | 150 => 9007199254740991
  | 165 => 4662469420320405
  | 180 => 4967757600021511
  | 195 => -4662469420320401
  | 210 => -4503599627370497
  | 225 => -1592262918131443
  | 240 => -975057921444245
  | 255 => -8700286382685973
  | 270 => -1
  | 285 => -4350143191342987
  | 300 => -3900231685776981
  | 315 => -3184525836262887
  | 330 => -1125899906842625
  | 345 => -4662469420320399
  | _ => 0

/-- Denominator of the exact value of the double `sin(radians(angle))`. -/
def sinDen : Nat → Int
  | 0 => 1
  | 15 => 1125899906842624
  | 30 => 18014398509481984
  | 45 => 2251799813685248
  | 60 => 4503599627370496
  | 75 => 9007199254740992
  | 90 => 1
  | 105 => 9007199254740992
  | 120 => 9007199254740992
  | 135 => 9007199254740992
  | 150 => 18014398509481984
  | 165 => 18014398509481984
  | 180 => 40564819207303340847894502572032
  | 195 => 18014398509481984
  | 210 => 9007199254740992
  | 225 => 2251799813685248
  | 240 => 1125899906842624
  | 255 => 9007199254740992
  | 270 => 1
  | 285 => 4503599627370496
  | 300 => 4503599627370496
  | 315 => 4503599627370496
  | 330 => 2251799813685248
  | 345 => 18014398509481984
  | _ => 1

/-- `int(radius * cos(radians(angle)))`. -/
def sampleDx (r deg : Nat) : Int := ((r : Int) * cosNum deg).tdiv (cosDen deg)

/-- `int(radius * sin(radians(angle)))`. -/
def sampleDy (r deg : Nat) : Int := ((r : Int) * sinNum deg).tdiv (sinDen deg)

/-- `max_search_radius = min(50, min(self.mask.shape) // 10)`
(`shape = (height, width)`). -/
def maxSearchRadius (m : Mask) : Nat := min 50 (min m.h m.w / 10)

/-- One probe of the ring search: the sampled point at the given radius
and angle, if it is an in-bounds background pixel. -/
def probe (m : Mask) (x y : Int) (r deg : Nat) : Option (Int × Int) :=
  if m.inB (x + sampleDx r deg) (y + sampleDy r deg) ∧
      m.px (x + sampleDx r deg) (y + sampleDy r deg) = 0 then
    some (x + sampleDx r deg, y + sampleDy r deg)
  else none

/-- The ring search: radii `1..max_search_radius`, 24 angles at 15°
steps per ring, first hit wins (the double `break` of the source). -/
def searchBg (m : Mask) (x y : Int) : Option (Int × Int) :=
  (List.range (maxSearchRadius m)).findSome? fun ri =>
    (List.range 24).findSome? fun k => probe m x y (ri + 1) (15 * k)

/-- `max_fill_pixels`. -/
def maxFill : Nat := 100000

/-- The stack-based fill loop (`while stack and filled_pixels < max_fill_pixels`),
with explicit fuel; `none` means the fuel ran out (never happens for the
fuel used below).  The stack is `list.append`/`list.pop()` on the Python
list tail, so the head of this list is the most recently appended entry. -/
def ffLoop (orig fillv cap : Nat) : Nat → Mask → List (Int × Int) → Nat → Option (Mask × Nat)
  | 0, _, _, _ => none
  | fuel + 1, m, stack, filled =>
    match stack with
    | [] => some (m, filled)
    | (cx, cy) :: rest =>
      if cap ≤ filled then some (m, filled)
      else if ¬ m.inB cx cy then ffLoop orig fillv cap fuel m rest filled
      else if m.px cx cy ≠ orig then ffLoop orig fillv cap fuel m rest filled
      else
        ffLoop orig fillv cap fuel (m.set cx cy fillv)
          ((cx, cy - 1) :: (cx, cy + 1) :: (cx - 1, cy) :: (cx + 1, cy) :: rest)
          (filled + 1)

/-- Fuel sufficient for every run of the loop (see the measure arguments
below). -/
def floodFuel (m : Mask) : Nat := 5 * maxFill + 5 * (m.w * m.h) + 2

/-- Embedding of `PaintWidget.flood_fill` (with a mask loaded).  Returns
`(success, filled_pixels, mask, history)`: the source returns the boolean
`filled_pixels > 0` and mutates the mask and the undo history in place. -/
def floodFill (m : Mask) (hist : List Mask) (x y : Int) (fillClass : Nat) :
    Option (Bool × Nat × Mask × List Mask) :=
  if ¬ m.inB x y then some (false, 0, m, hist)
  else if m.px x y = fillClass then
    match searchBg m x y with
    | none => some (false, 0, m, saveMaskState hist m)
    | some p =>
      (ffLoop 0 fillClass maxFill (floodFuel m) m [p] 0).map
        (fun res => (decide (0 < res.2), res.2, res.1, saveMaskState hist m))
  else
    (ffLoop (m.px x y) fillClass maxFill (floodFuel m) m [(x, y)] 0).map
      (fun res => (decide (0 < res.2), res.2, res.1, saveMaskState hist m))

/-! Step lemmas for the fill loop. -/

lemma ffLoop_succ_nil (o f c fuel : Nat) (m : Mask) (fl : Nat) :
    ffLoop o f c (fuel + 1) m [] fl = some (m, fl) := rfl

lemma ffLoop_cons_cap {o f c fuel : Nat} {m : Mask} {cx cy : Int}
    {rest : List (Int × Int)} {fl : Nat} (h : c ≤ fl) :
    ffLoop o f c (fuel + 1) m ((cx, cy) :: rest) fl = some (m, fl) := by
  simp [ffLoop, h]

lemma ffLoop_cons_oob {o f c fuel : Nat} {m : Mask} {cx cy : Int}
    {rest : List (Int × Int)} {fl : Nat} (hcap : ¬ c ≤ fl) (h : ¬ m.inB cx cy) :
    ffLoop o f c (fuel + 1) m ((cx, cy) :: rest) fl = ffLoop o f c fuel m rest fl := by
  simp [ffLoop, hcap, h]

lemma ffLoop_cons_skip {o f c fuel : Nat} {m : Mask} {cx cy : Int}
    {rest : List (Int × Int)} {fl : Nat} (hcap : ¬ c ≤ fl) (hin : m.inB cx cy)
    (hne : m.px cx cy ≠ o) :
    ffLoop o f c (fuel + 1) m ((cx, cy) :: rest) fl = ffLoop o f c fuel m rest fl := by
  simp [ffLoop, hcap, hin, hne]

lemma ffLoop_cons_fill {o f c fuel : Nat} {m : Mask} {cx cy : Int}
    {rest : List (Int × Int)} {fl : Nat} (hcap : ¬ c ≤ fl) (hin : m.inB cx cy)
    (heq : m.px cx cy = o) :
    ffLoop o f c (fuel + 1) m ((cx, cy) :: rest) fl =
      ffLoop o f c fuel (m.set cx cy f)
        ((cx, cy - 1) :: (cx, cy + 1) :: (cx - 1, cy) :: (cx + 1, cy) :: rest) (fl + 1) := by
  simp [ffLoop, hcap, hin, heq]

/-! Raster cells as a finite set, for counting filled pixels. -/

/-- The in-bounds cells of a mask. -/
def grid (m : Mask) : Finset (Int × Int) :=
  Finset.Icc 0 ((m.w : Int) - 1) ×ˢ Finset.Icc 0 ((m.h : Int) - 1)

lemma mem_grid {m : Mask} {c : Int × Int} : c ∈ grid m ↔ m.inB c.1 c.2 := by
  unfold grid Mask.inB
  rw [Finset.mem_product, Finset.mem_Icc, Finset.mem_Icc]
  omega

lemma grid_card (m : Mask) : (grid m).card = m.w * m.h := by
  unfold grid
  rw [Finset.card_product, Int.card_Icc, Int.card_Icc]
  have h1 : ((m.w : Int) - 1 + 1 - 0).toNat = m.w := by omega
  have h2 : ((m.h : Int) - 1 + 1 - 0).toNat = m.h := by omega
  rw [h1, h2]

/-- The in-bounds cells currently holding class `v`. -/
def filledCells (m : Mask) (v : Nat) : Finset (Int × Int) :=
  (grid m).filter fun c => m.px c.1 c.2 = v

/-- The four cells pushed when a cell is filled. -/
def neighbors (c : Int × Int) : List (Int × Int) :=
  [(c.1, c.2 - 1), (c.1, c.2 + 1), (c.1 - 1, c.2), (c.1 + 1, c.2)]

lemma grid_set (m : Mask) (x y : Int) (v : Nat) : grid (m.set x y v) = grid m := rfl

lemma filledCells_card_le (m : Mask) (v : Nat) :
    (filledCells m v).card ≤ m.w * m.h := by
  rw [← grid_card]
  exact Finset.card_le_card (Finset.filter_subset _ _)

lemma mem_filledCells {m : Mask} {v : Nat} {c : Int × Int} :
    c ∈ filledCells m v ↔ m.inB c.1 c.2 ∧ m.px c.1 c.2 = v := by
  unfold filledCells
  rw [Finset.mem_filter, mem_grid]

lemma filledCells_eq_empty {m : Mask} {v : Nat}
    (h : ∀ a b : Int, m.inB a b → m.px a b ≠ v) : filledCells m v = ∅ := by
  unfold filledCells
  rw [Finset.filter_eq_empty_iff]
  intro c hc
  exact h c.1 c.2 (mem_grid.1 hc)

lemma filledCells_set_insert (m : Mask) {cx cy : Int} (hin : m.inB cx cy) {v : Nat}
    (hv : v % 256 = v) :
    filledCells (m.set cx cy v) v = insert (cx, cy) (filledCells m v) := by
  ext c
  obtain ⟨c1, c2⟩ := c
  rw [mem_filledCells, Finset.mem_insert, mem_filledCells]
  constructor
  · rintro ⟨hcg, hpx⟩
    by_cases hcc : c1 = cx ∧ c2 = cy
    · exact Or.inl (by rw [hcc.1, hcc.2])
    · right
      rw [Mask.px_set_other _ _ _ _ _ _ hcc] at hpx
      exact ⟨(Mask.inB_set _ _ _ _ _ _).1 hcg, hpx⟩
  · rintro (heq | ⟨hcg, hpx⟩)
    · injection heq with h1 h2
      subst h1
      subst h2
      refine ⟨(Mask.inB_set _ _ _ _ _ _).2 hin, ?_⟩
      rw [Mask.px_set, if_pos ⟨rfl, rfl⟩]
      exact hv
    · refine ⟨(Mask.inB_set _ _ _ _ _ _).2 hcg, ?_⟩
      by_cases hcc : c1 = cx ∧ c2 = cy
      · rw [Mask.px_set, if_pos hcc]
        exact hv
      · rw [Mask.px_set_other _ _ _ _ _ _ hcc]
        exact hpx

lemma filledCells_set_card (m : Mask) {cx cy : Int} (hin : m.inB cx cy) {v : Nat}
    (hv : v % 256 = v) (hne : m.px cx cy ≠ v) :
    (filledCells (m.set cx cy v) v).card = (filledCells m v).card + 1 := by
  rw [filledCells_set_insert m hin hv,
    Finset.card_insert_of_not_mem (fun hmem => hne (mem_filledCells.1 hmem).2)]

/-! Structural lemmas for the fill loop. -/

lemma ffLoop_dims (o f cp : Nat) :
    ∀ (fuel : Nat) (m : Mask) (st : List (Int × Int)) (fl : Nat) (r : Mask × Nat),
      ffLoop o f cp fuel m st fl = some r → r.1.w = m.w ∧ r.1.h = m.h := by
  intro fuel
  induction fuel with
  | zero =>
    intro m st fl r h
    exact absurd h (by simp [ffLoop])
  | succ fuel ih =>
    intro m st fl r h
    cases st with
    | nil =>
      rw [ffLoop_succ_nil] at h
      cases h
      exact ⟨rfl, rfl⟩
    | cons c0 rest =>
      obtain ⟨cx, cy⟩ := c0
      by_cases hcap : cp ≤ fl
      · rw [ffLoop_cons_cap hcap] at h
        cases h
        exact ⟨rfl, rfl⟩
      · by_cases hin : m.inB cx cy
        · by_cases hpx : m.px cx cy = o
          · rw [ffLoop_cons_fill hcap hin hpx] at h
            exact ih (m.set cx cy f) _ _ r h
          · rw [ffLoop_cons_skip hcap hin hpx] at h
            exact ih _ _ _ _ h
        · rw [ffLoop_cons_oob hcap hin] at h
          exact ih _ _ _ _ h

lemma ffLoop_filled_le (o f cp : Nat) :
    ∀ (fuel : Nat) (m : Mask) (st : List (Int × Int)) (fl : Nat) (r : Mask × Nat),
      ffLoop o f cp fuel m st fl = some r → fl ≤ r.2 := by
  intro fuel
  induction fuel with
  | zero =>
    intro m st fl r h
    exact absurd h (by simp [ffLoop])
  | succ fuel ih =>
    intro m st fl r h
    cases st with
    | nil =>
      rw [ffLoop_succ_nil] at h
      cases h
      exact le_refl _
    | cons c0 rest =>
      obtain ⟨cx, cy⟩ := c0
      by_cases hcap : cp ≤ fl
      · rw [ffLoop_cons_cap hcap] at h
        cases h
        exact le_refl _
      · by_cases hin : m.inB cx cy
        · by_cases hpx : m.px cx cy = o
          · rw [ffLoop_cons_fill hcap hin hpx] at h
            have h2 := ih (m.set cx cy f) _ _ r h
            omega
          · rw [ffLoop_cons_skip hcap hin hpx] at h
            exact ih _ _ _ _ h
        · rw [ffLoop_cons_oob hcap hin] at h
          exact ih _ _ _ _ h

lemma ffLoop_px_stable (o f cp : Nat) (a b : Int) :
    ∀ (fuel : Nat) (m : Mask) (st : List (Int × Int)) (fl : Nat) (r : Mask × Nat),
      ffLoop o f cp fuel m st fl = some r → m.px a b = f % 256 → r.1.px a b = f % 256 := by
  intro fuel
  induction fuel with
  | zero =>
    intro m st fl r h
    exact absurd h (by simp [ffLoop])
  | succ fuel ih =>
    intro m st fl r h hpx0
    cases st with
    | nil =>
      rw [ffLoop_succ_nil] at h
      cases h
      exact hpx0
    | cons c0 rest =>
      obtain ⟨cx, cy⟩ := c0
      by_cases hcap : cp ≤ fl
      · rw [ffLoop_cons_cap hcap] at h
        cases h
        exact hpx0
      · by_cases hin : m.inB cx cy
        · by_cases hpx : m.px cx cy = o
          · rw [ffLoop_cons_fill hcap hin hpx] at h
            refine ih _ _ _ _ h ?_
            rw [Mask.px_set]
            split
            · rfl
            · exact hpx0
          · rw [ffLoop_cons_skip hcap hin hpx] at h
            exact ih _ _ _ _ h hpx0
        · rw [ffLoop_cons_oob hcap hin] at h
          exact ih _ _ _ _ h hpx0

/-! First-hit characterization of `findSome?` over `List.range`. -/

lemma findSome?_all_none {α β : Type} (f : α → Option β) :
    ∀ L : List α, (∀ a ∈ L, f a = none) → L.findSome? f = none := by
  intro L
  induction L with
  | nil => intro h; rfl
  | cons a L ih =>
    intro h
    rw [List.findSome?_cons, h a (List.mem_cons_self _ _)]
    exact ih (fun q hq => h q (List.mem_cons_of_mem _ hq))

lemma findSome?_map_succ {α : Type} (f : Nat → Option α) :
    ∀ l : List Nat, (l.map Nat.succ).findSome? f = l.findSome? (fun j => f (j + 1)) := by
  intro l
  induction l with
  | nil => rfl
  | cons a l ih =>
    rw [List.map_cons, List.findSome?_cons, List.findSome?_cons, ih]

lemma findSome?_range_none {α : Type} (f : Nat → Option α) :
    ∀ n : Nat, (∀ j, j < n → f j = none) → (List.range n).findSome? f = none := by
  intro n h
  exact findSome?_all_none f _ (fun a ha => h a (List.mem_range.1 ha))

lemma findSome?_range_first {α : Type} (v : α) :
    ∀ (i : Nat) (f : Nat → Option α) (n : Nat), i < n → f i = some v →
      (∀ j, j < i → f j = none) → (List.range n).findSome? f = some v := by
  intro i
  induction i with
  | zero =>
    intro f n hn hv _
    obtain ⟨m, rfl⟩ : ∃ m, n = m + 1 := ⟨n - 1, by omega⟩
    rw [List.range_succ_eq_map, List.findSome?_cons, hv]
  | succ i ih =>
    intro f n hn hv hnone
    obtain ⟨m, rfl⟩ : ∃ m, n = m + 1 := ⟨n - 1, by omega⟩
    rw [List.range_succ_eq_map, List.findSome?_cons, hnone 0 (Nat.succ_pos _)]
    rw [findSome?_map_succ]
    exact ih (fun j => f (j + 1)) m (by omega) hv (fun j hj => hnone (j + 1) (by omega))

/-! Characterization of the ring search. -/

lemma probe_eq_some {m : Mask} {x y : Int} {r deg : Nat} {p : Int × Int}
    (h : probe m x y r deg = some p) : m.inB p.1 p.2 ∧ m.px p.1 p.2 = 0 := by
  unfold probe at h
  split at h
  · rename_i hc
    cases h
    exact hc
  · exact absurd h (by simp)

lemma searchBg_props {m : Mask} {x y : Int} {p : Int × Int}
    (h : searchBg m x y = some p) : m.inB p.1 p.2 ∧ m.px p.1 p.2 = 0 := by
  unfold searchBg at h
  obtain ⟨ri, _, hri⟩ := List.exists_of_findSome?_eq_some h
  obtain ⟨k, _, hk⟩ := List.exists_of_findSome?_eq_some hri
  exact probe_eq_some hk

lemma searchBg_eq_none (m : Mask) (x y : Int)
    (h : ∀ r, 1 ≤ r → r ≤ maxSearchRadius m → ∀ k, k < 24 → probe m x y r (15 * k) = none) :
    searchBg m x y = none := by
  unfold searchBg
  refine findSome?_range_none _ _ (fun ri hri => ?_)
  refine findSome?_range_none _ _ (fun k hk => ?_)
  exact h (ri + 1) (by omega) (by omega) k hk

lemma searchBg_eq_some (m : Mask) (x y : Int) (r0 k0 : Nat) (p : Int × Int)
    (h1 : 1 ≤ r0) (h2 : r0 ≤ maxSearchRadius m) (hk : k0 < 24)
    (hp : probe m x y r0 (15 * k0) = some p)
    (hprev : ∀ r k, 1 ≤ r → r ≤ maxSearchRadius m → k < 24 →
      (r < r0 ∨ (r = r0 ∧ k < k0)) → probe m x y r (15 * k) = none) :
    searchBg m x y = some p := by
  unfold searchBg
  refine findSome?_range_first p (r0 - 1) _ (maxSearchRadius m) (by omega) ?_ ?_
  · have hr0 : r0 - 1 + 1 = r0 := by omega
    rw [hr0]
    refine findSome?_range_first p k0 _ 24 hk hp ?_
    intro j hj
    exact hprev r0 j h1 h2 (by omega) (Or.inr ⟨rfl, hj⟩)
  · intro j hj
    refine findSome?_range_none _ _ (fun k hk2 => ?_)
    exact hprev (j + 1) k (by omega) (by omega) hk2 (Or.inl (by omega))

/-! Connectivity of the raster grid under 4-neighbor closure. -/

/-- Every in-bounds neighbor of an in-bounds `v`-cell is a `v`-cell. -/
def closedUnder (m : Mask) (v : Nat) : Prop :=
  ∀ a b : Int, m.inB a b → m.px a b = v →
    ∀ n ∈ neighbors (a, b), m.inB n.1 n.2 → m.px n.1 n.2 = v

lemma spread_vert (m : Mask) (v : Nat) (hcl : closedUnder m v) (s : Int)
    (hs : s = 1 ∨ s = -1) :
    ∀ (k : Nat) (a b : Int), m.inB a b → m.px a b = v → m.inB a (b + k * s) →
      m.px a (b + k * s) = v := by
  intro k
  induction k with
  | zero =>
    intro a b h1 h2 h3
    simpa using h2
  | succ k ih =>
    intro a b h1 h2 h3
    have hmid : m.inB a (b + k * s) := by
      unfold Mask.inB at h1 h3 ⊢
      rcases hs with rfl | rfl <;> (push_cast at h3 ⊢; omega)
    have hv := ih a b h1 h2 hmid
    have hmem : (a, b + k * s + s) ∈ neighbors (a, b + k * s) := by
      rcases hs with rfl | rfl
      · simp [neighbors]
      · have : b + (k : Int) * (-1) + -1 = b + (k : Int) * (-1) - 1 := by ring
        rw [this]
        simp [neighbors]
    have heq : b + ((k : Nat) + 1 : Nat) * s = b + (k : Int) * s + s := by
      push_cast
      ring
    rw [heq] at h3 ⊢
    exact hcl a (b + k * s) hmid hv (a, b + k * s + s) hmem h3

lemma spread_horiz (m : Mask) (v : Nat) (hcl : closedUnder m v) (s : Int)
    (hs : s = 1 ∨ s = -1) :
    ∀ (k : Nat) (a b : Int), m.inB a b → m.px a b = v → m.inB (a + k * s) b →
      m.px (a + k * s) b = v := by
  intro k
  induction k with
  | zero =>
    intro a b h1 h2 h3
    simpa using h2
  | succ k ih =>
    intro a b h1 h2 h3
    have hmid : m.inB (a + k * s) b := by
      unfold Mask.inB at h1 h3 ⊢
      rcases hs with rfl | rfl <;> (push_cast at h3 ⊢; omega)
    have hv := ih a b h1 h2 hmid
    have hmem : (a + k * s + s, b) ∈ neighbors (a + k * s, b) := by
      rcases hs with rfl | rfl
      · simp [neighbors]
      · have : a + (k : Int) * (-1) + -1 = a + (k : Int) * (-1) - 1 := by ring
        rw [this]
        simp [neighbors]
    have heq : a + ((k : Nat) + 1 : Nat) * s = a + (k : Int) * s + s := by
      push_cast
      ring
    rw [heq] at h3 ⊢
    exact hcl (a + k * s) b hmid hv (a + k * s + s, b) hmem h3

/-- A nonempty 4-neighbor-closed region of the raster is the whole raster. -/
lemma closed_connected (m : Mask) (v : Nat) (hcl : closedUnder m v)
    (sx sy : Int) (hs : m.inB sx sy) (hv : m.px sx sy = v) :
    ∀ a b : Int, m.inB a b → m.px a b = v := by
  intro a b hab
  have hsb : m.inB sx b := by
    unfold Mask.inB at hs hab ⊢
    omega
  have h1 : m.px sx b = v := by
    rcases le_total sy b with hle | hle
    · obtain ⟨k, hk⟩ := Int.le.dest hle
      have : b = sy + (k : Int) * 1 := by omega
      rw [this] at hsb ⊢
      exact spread_vert m v hcl 1 (Or.inl rfl) k sx sy hs hv hsb
    · obtain ⟨k, hk⟩ := Int.le.dest hle
      have : b = sy + (k : Int) * (-1) := by omega
      rw [this] at hsb ⊢
      exact spread_vert m v hcl (-1) (Or.inr rfl) k sx sy hs hv hsb
  rcases le_total sx a with hle | hle
  · obtain ⟨k, hk⟩ := Int.le.dest hle
    have : a = sx + (k : Int) * 1 := by omega
    rw [this] at hab ⊢
    exact spread_horiz m v hcl 1 (Or.inl rfl) k sx b hsb h1 hab
  · obtain ⟨k, hk⟩ := Int.le.dest hle
    have : a = sx + (k : Int) * (-1) := by omega
    rw [this] at hab ⊢
    exact spread_horiz m v hcl (-1) (Or.inr rfl) k sx b hsb h1 hab

/-- Master invariant lemma for the fill loop on an all-background raster
(`orig = 0`, `0 < f < 256`): the loop terminates with exactly
`min (w * h) max_fill_pixels` cells filled. -/
lemma ffLoop_fullfill (f : Nat) (hf0 : f ≠ 0) (hf2 : f < 256) (sx sy : Int) :
    ∀ (fuel : Nat) (m : Mask) (stack : List (Int × Int)) (filled : Nat),
      m.inB sx sy →
      (∀ a b : Int, m.inB a b → m.px a b = 0 ∨ m.px a b = f) →
      filled = (filledCells m f).card →
      filled ≤ maxFill →
      (∀ c ∈ filledCells m f, ∀ n ∈ neighbors c, m.inB n.1 n.2 →
        (m.px n.1 n.2 = f ∨ n ∈ stack)) →
      ((sx, sy) ∈ stack ∨ m.px sx sy = f) →
      stack.length + 5 * (m.w * m.h - filled) < fuel →
      ∃ m2 : Mask, ffLoop 0 f maxFill fuel m stack filled = some (m2, (filledCells m2 f).card) ∧
        m2.w = m.w ∧ m2.h = m.h ∧
        (filledCells m2 f).card = min (m.w * m.h) maxFill := by
  have hfmod : f % 256 = f := Nat.mod_eq_of_lt hf2
  intro fuel
  induction fuel with
  | zero =>
    intro m stack filled _ _ _ _ _ _ hfuel
    omega
  | succ fuel ih =>
    intro m stack filled hseed h0f hcount hle hclosure hseedInv hfuel
    cases stack with
    | nil =>
      have hseedF : m.px sx sy = f := by
        rcases hseedInv with h | h
        · exact absurd h (List.not_mem_nil _)
        · exact h
      have hcl : closedUnder m f := by
        intro a b hab hv n hn hnb
        rcases hclosure (a, b) (mem_filledCells.2 ⟨hab, hv⟩) n hn hnb with h | h
        · exact h
        · exact absurd h (List.not_mem_nil _)
      have hall : ∀ a b : Int, m.inB a b → m.px a b = f :=
        closed_connected m f hcl sx sy hseed hseedF
      have hgrid : filledCells m f = grid m := by
        ext c
        rw [mem_filledCells, mem_grid]
        exact ⟨fun h => h.1, fun h => ⟨h, hall c.1 c.2 h⟩⟩
      have hcard : (filledCells m f).card = m.w * m.h := by rw [hgrid, grid_card]
      refine ⟨m, ?_, rfl, rfl, ?_⟩
      · rw [ffLoop_succ_nil, hcount]
      · rw [hcard, Nat.min_eq_left (by omega)]
    | cons c0 rest =>
      obtain ⟨cx, cy⟩ := c0
      by_cases hcap : maxFill ≤ filled
      · have hfe : filled = maxFill := le_antisymm hle hcap
        have h1 := filledCells_card_le m f
        refine ⟨m, ?_, rfl, rfl, ?_⟩
        · rw [ffLoop_cons_cap hcap, hcount]
        · rw [← hcount, hfe, Nat.min_eq_right (by omega)]
      · by_cases hin : m.inB cx cy
        · by_cases hpx : m.px cx cy = 0
          · -- fill the popped cell
            rw [ffLoop_cons_fill hcap hin hpx]
            have hne : m.px cx cy ≠ f := by
              rw [hpx]
              exact fun h => hf0 h.symm
            have hcard2 := filledCells_set_card m hin hfmod hne
            have hcardle := filledCells_card_le (m.set cx cy f) f
            simp only [Mask.set_w, Mask.set_h] at hcardle
            obtain ⟨m2, hres, hw, hh, hmin⟩ := ih (m.set cx cy f)
              ((cx, cy - 1) :: (cx, cy + 1) :: (cx - 1, cy) :: (cx + 1, cy) :: rest)
              (filled + 1)
              hseed
              (fun a b hab => by
                rw [Mask.px_set]
                split
                · exact Or.inr hfmod
                · exact h0f a b hab)
              (by rw [hcard2, hcount])
              (by omega)
              (by
                intro c hc n hn hnb
                rw [filledCells_set_insert m hin hfmod, Finset.mem_insert] at hc
                rcases hc with rfl | hc
                · right
                  simp only [neighbors, List.mem_cons, List.not_mem_nil, or_false] at hn
                  rcases hn with rfl | rfl | rfl | rfl
                  · exact List.mem_cons_self _ _
                  · exact List.mem_cons_of_mem _ (List.mem_cons_self _ _)
                  · exact List.mem_cons_of_mem _ (List.mem_cons_of_mem _ (List.mem_cons_self _ _))
                  · exact List.mem_cons_of_mem _ (List.mem_cons_of_mem _
                      (List.mem_cons_of_mem _ (List.mem_cons_self _ _)))
                · rcases hclosure c hc n hn hnb with hf | hstk
                  · left
                    rw [Mask.px_set]
                    split
                    · exact hfmod
                    · exact hf
                  · rcases List.mem_cons.1 hstk with rfl | hrest
                    · left
                      exact (Mask.px_set_same m cx cy f).trans hfmod
                    · right
                      exact List.mem_cons_of_mem _ (List.mem_cons_of_mem _
                        (List.mem_cons_of_mem _ (List.mem_cons_of_mem _ hrest))))
              (by
                rcases hseedInv with hmem | hpxf
                · rcases List.mem_cons.1 hmem with heq | hrest
                  · injection heq with e1 e2
                    subst e1
                    subst e2
                    exact Or.inr ((Mask.px_set_same m sx sy f).trans hfmod)
                  · exact Or.inl (List.mem_cons_of_mem _ (List.mem_cons_of_mem _
                      (List.mem_cons_of_mem _ (List.mem_cons_of_mem _ hrest))))
                · refine Or.inr ?_
                  rw [Mask.px_set]
                  split
                  · exact hfmod
                  · exact hpxf)
              (by
                simp only [List.length_cons, Mask.set_w, Mask.set_h]
                simp only [List.length_cons] at hfuel
                have hlt : filled + 1 ≤ m.w * m.h := by
                  rw [hcount, ← hcard2]
                  exact hcardle
                omega)
            exact ⟨m2, hres, hw, hh, hmin⟩
          · -- popped cell already filled: skip
            rw [ffLoop_cons_skip hcap hin hpx]
            have hpf : m.px cx cy = f := (h0f cx cy hin).resolve_left hpx
            refine ih m rest filled hseed h0f hcount hle ?_ ?_ ?_
            · intro c hc n hn hnb
              rcases hclosure c hc n hn hnb with h | h
              · exact Or.inl h
              · rcases List.mem_cons.1 h with rfl | hr
                · exact Or.inl hpf
                · exact Or.inr hr
            · rcases hseedInv with hmem | hpxf
              · rcases List.mem_cons.1 hmem with heq | hrest
                · injection heq with e1 e2
                  subst e1
                  subst e2
                  exact Or.inr hpf
                · exact Or.inl hrest
              · exact Or.inr hpxf
            · simp only [List.length_cons] at hfuel
              omega
        · -- popped cell out of bounds: skip
          rw [ffLoop_cons_oob hcap hin]
          refine ih m rest filled hseed h0f hcount hle ?_ ?_ ?_
          · intro c hc n hn hnb
            rcases hclosure c hc n hn hnb with h | h
            · exact Or.inl h
            · rcases List.mem_cons.1 h with rfl | hr
              · exact absurd hnb hin
              · exact Or.inr hr
          · rcases hseedInv with hmem | hpxf
            · rcases List.mem_cons.1 hmem with heq | hrest
              · injection heq with e1 e2
                subst e1
                subst e2
                exact absurd hseed hin
              · exact Or.inl hrest
            · exact Or.inr hpxf
          · simp only [List.length_cons] at hfuel
            omega

/-- C3: on an entirely-background mask, flood fill from any in-bounds seed
with a (byte-range) nonzero class fills exactly
`min(width*height, 100000)` pixels, the tracked pixel count equals that
minimum, the call reports success, and the loop terminates (the result is
`some …`: the stack empties or the cap stops it). -/
theorem C3_fill_entire_background (m : Mask) (hist : List Mask) (x y : Int) (f : Nat)
    (hz : ∀ a b : Int, m.inB a b → m.px a b = 0)
    (hin : m.inB x y) (hf0 : f ≠ 0) (hf2 : f < 256) :
    ∃ m2 : Mask,
      floodFill m hist x y f =
        some (true, min (m.w * m.h) maxFill, m2, saveMaskState hist m) ∧
      (filledCells m2 f).card = min (m.w * m.h) maxFill := by
  have hempty : filledCells m f = ∅ := filledCells_eq_empty (fun a b hab => by
    rw [hz a b hab]
    exact fun h => hf0 h.symm)
  have hpx0 : m.px x y = 0 := hz x y hin
  have hne : ¬ (m.px x y = f) := by
    rw [hpx0]
    exact fun h => hf0 h.symm
  obtain ⟨m2, hres, hw, hh, hmin⟩ := ffLoop_fullfill f hf0 hf2 x y (floodFuel m) m [(x, y)] 0
    hin (fun a b hab => Or.inl (hz a b hab))
    (by rw [hempty, Finset.card_empty])
    (Nat.zero_le _)
    (fun c hc => absurd (by rwa [hempty] at hc) (Finset.not_mem_empty c))
    (Or.inl (List.mem_cons_self _ _))
    (by
      unfold floodFuel
      simp only [List.length_cons, List.length_nil]
      omega)
  have hWH : 0 < m.w ∧ 0 < m.h := by
    unfold Mask.inB at hin
    omega
  have hpos : 0 < min (m.w * m.h) maxFill := by
    refine lt_min (Nat.mul_pos hWH.1 hWH.2) ?_
    unfold maxFill
    omega
  refine ⟨m2, ?_, hmin⟩
  unfold floodFill
  rw [if_neg (not_not_intro hin), if_neg hne, hpx0, hres, Option.map_some', hmin,
    decide_eq_true hpos]

/-- Witness for C3 on the 1×1 all-background mask, class 1. -/
theorem C3_fill_entire_background_witness :
    (∀ a b : Int, (zeroMask 1 1).inB a b → (zeroMask 1 1).px a b = 0) ∧
    (zeroMask 1 1).inB 0 0 ∧
    ∃ m2 : Mask,
      floodFill (zeroMask 1 1) [] 0 0 1 =
        some (true, min ((zeroMask 1 1).w * (zeroMask 1 1).h) maxFill, m2,
          saveMaskState [] (zeroMask 1 1)) ∧
      (filledCells m2 1).card = min ((zeroMask 1 1).w * (zeroMask 1 1).h) maxFill :=
  ⟨fun _ _ _ => rfl, by decide,
    C3_fill_entire_background (zeroMask 1 1) [] 0 0 1 (fun _ _ _ => rfl) (by decide)
      (by decide) (by decide)⟩

/-- C8: flood fill with an out-of-raster seed fails as an explicit result
value (False, 0 pixels filled), leaving the mask — and even the undo
history — untouched; it never raises. -/
theorem C8_oob_seed_noop (m : Mask) (hist : List Mask) (x y : Int) (f : Nat)
    (h : ¬ m.inB x y) :
    floodFill m hist x y f = some (false, 0, m, hist) := by
  unfold floodFill
  rw [if_pos h]

/-- Witness for C8 at the out-of-bounds seed (5, 0) of a 2×2 mask. -/
theorem C8_oob_seed_noop_witness :
    ¬ (zeroMask 2 2).inB 5 0 ∧
      floodFill (zeroMask 2 2) [] 5 0 1 = some (false, 0, zeroMask 2 2, []) :=
  ⟨by decide, C8_oob_seed_noop (zeroMask 2 2) [] 5 0 1 (by decide)⟩

/-- C6 counterexample: `flood_fill` itself changes the undo history — on a
1×1 mask whose pixel already holds the target class (so the search fails
and the call even returns failure), the history grows from 0 to 1 entries
because `flood_fill` calls `save_mask_state` after its bounds check. -/
theorem C6_cx :
    (floodFill (Mask.mk 1 1 fun _ _ => 1) [] 0 0 1).map (fun r => r.2.2.2.length) ≠
      some 0 := by
  decide

/-- C6 amended: for every in-bounds seed, `flood_fill` itself pushes the
pre-call mask onto the undo history (`save_mask_state` is called inside
the engine, right after the bounds check); the double-click caller takes
no snapshot of its own. -/
theorem C6_snapshot_in_engine (m : Mask) (hist : List Mask) (x y : Int) (f : Nat)
    (hin : m.inB x y) (r : Bool × Nat × Mask × List Mask)
    (hr : floodFill m hist x y f = some r) :
    r.2.2.2 = saveMaskState hist m := by
  unfold floodFill at hr
  rw [if_neg (not_not_intro hin)] at hr
  by_cases hpx : m.px x y = f
  · rw [if_pos hpx] at hr
    split at hr
    · cases hr
      rfl
    · rename_i p _
      cases hloop : ffLoop 0 f maxFill (floodFuel m) m [p] 0 with
      | none =>
        rw [hloop] at hr
        exact absurd hr (by simp)
      | some res =>
        rw [hloop, Option.map_some'] at hr
        cases hr
        rfl
  · rw [if_neg hpx] at hr
    cases hloop : ffLoop (m.px x y) f maxFill (floodFuel m) m [(x, y)] 0 with
    | none =>
      rw [hloop] at hr
      exact absurd hr (by simp)
    | some res =>
      rw [hloop, Option.map_some'] at hr
      cases hr
      rfl

/-- Witness for C6 amended on the 1×1 mask whose pixel holds the target
class (search-failure path). -/
theorem C6_snapshot_in_engine_witness :
    (Mask.mk 1 1 fun _ _ => 1).inB 0 0 ∧
    floodFill (Mask.mk 1 1 fun _ _ => 1) [] 0 0 1 =
      some (false, 0, Mask.mk 1 1 fun _ _ => 1, [Mask.mk 1 1 fun _ _ => 1]) ∧
    ([Mask.mk 1 1 fun _ _ => 1] : List Mask) =
      saveMaskState [] (Mask.mk 1 1 fun _ _ => 1) :=
  ⟨by decide, rfl,
    C6_snapshot_in_engine (Mask.mk 1 1 fun _ _ => 1) [] 0 0 1 (by decide)
      (false, 0, Mask.mk 1 1 fun _ _ => 1, [Mask.mk 1 1 fun _ _ => 1]) rfl⟩

/-- C7: when the seed pixel already holds the target class, the engine
searches rings of radius `1..min(50, min(width,height)//10)`, sampling 24
points per ring at 15° steps; it reseeds at the first in-bounds
background sample in order of increasing radius then increasing angle and
fills from there with `original` redefined to 0; if no sample hits
background, the call fails (False, 0 pixels) without changing any mask
pixel. -/
theorem C7_ring_search (m : Mask) (hist : List Mask) (x y : Int) (f : Nat)
    (hin : m.inB x y) (hpx : m.px x y = f) :
    ((∀ r, 1 ≤ r → r ≤ maxSearchRadius m → ∀ k, k < 24 → probe m x y r (15 * k) = none) →
      floodFill m hist x y f = some (false, 0, m, saveMaskState hist m)) ∧
    (∀ (r0 k0 : Nat) (p : Int × Int), 1 ≤ r0 → r0 ≤ maxSearchRadius m → k0 < 24 →
      probe m x y r0 (15 * k0) = some p →
      (∀ r k, 1 ≤ r → r ≤ maxSearchRadius m → k < 24 →
        (r < r0 ∨ (r = r0 ∧ k < k0)) → probe m x y r (15 * k) = none) →
      floodFill m hist x y f =
        (ffLoop 0 f maxFill (floodFuel m) m [p] 0).map
          (fun res => (decide (0 < res.2), res.2, res.1, saveMaskState hist m))) := by
  constructor
  · intro hnone
    unfold floodFill
    rw [if_neg (not_not_intro hin), if_pos hpx, searchBg_eq_none m x y hnone]
  · intro r0 k0 p h1 h2 hk hp hprev
    unfold floodFill
    rw [if_neg (not_not_intro hin), if_pos hpx,
      searchBg_eq_some m x y r0 k0 p h1 h2 hk hp hprev]

/-- The 10×10 mask holding class 1 at (5,5) and background elsewhere. -/
def c7mask : Mask := ⟨10, 10, fun a b => if a = 5 ∧ b = 5 then 1 else 0⟩

/-- Witness for C7: on `c7mask` with seed (5,5) and class 1, the very
first sample (radius 1, angle 0°) hits background at (6,5) and the engine
fills from there. -/
theorem C7_ring_search_witness :
    c7mask.inB 5 5 ∧ c7mask.px 5 5 = 1 ∧
    probe c7mask 5 5 1 (15 * 0) = some (6, 5) ∧
    floodFill c7mask [] 5 5 1 =
      (ffLoop 0 1 maxFill (floodFuel c7mask) c7mask [(6, 5)] 0).map
        (fun res => (decide (0 < res.2), res.2, res.1, saveMaskState [] c7mask)) := by
  refine ⟨by decide, by decide, by decide, ?_⟩
  exact (C7_ring_search c7mask [] 5 5 1 (by decide) (by decide)).2 1 0 (6, 5)
    (by decide) (by decide) (by decide) (by decide)
    (fun r k hr1 hr2 hk habs => absurd habs (by omega))

/-- Loop lemma for the degenerate `fill_class = 0` reseed: on an
everywhere-zero mask (width at least 2), the loop keeps "filling"
0 over 0 until the pixel cap stops it, leaving every pixel unchanged. -/
lemma ffLoop_const_zero (W : Nat) (hW : 2 ≤ W) :
    ∀ (fuel : Nat) (m : Mask) (stack : List (Int × Int)) (filled : Nat),
      m.w = W →
      (∀ a b : Int, m.px a b = 0) →
      (∃ c ∈ stack, m.inB c.1 c.2) →
      filled ≤ maxFill →
      5 * (maxFill - filled) + stack.length < fuel →
      ∃ m2 : Mask, ffLoop 0 0 maxFill fuel m stack filled = some (m2, maxFill) ∧
        (∀ a b : Int, m2.px a b = 0) := by
  intro fuel
  induction fuel with
  | zero =>
    intro m stack filled _ _ _ _ hfuel
    omega
  | succ fuel ih =>
    intro m stack filled hw hz hwit hle hfuel
    obtain ⟨cw, hcwmem, hcwin⟩ := hwit
    cases stack with
    | nil => exact absurd hcwmem (List.not_mem_nil _)
    | cons c0 rest =>
      obtain ⟨cx, cy⟩ := c0
      by_cases hcap : maxFill ≤ filled
      · refine ⟨m, ?_, hz⟩
        rw [ffLoop_cons_cap hcap, le_antisymm hle hcap]
      · by_cases hin : m.inB cx cy
        · rw [ffLoop_cons_fill hcap hin (hz cx cy)]
          refine ih (m.set cx cy 0) _ (filled + 1) (by rw [Mask.set_w, hw]) ?_ ?_
            (by omega) ?_
          · intro a b
            rw [Mask.px_set]
            split
            · rfl
            · exact hz a b
          · by_cases hc : cx + 1 < (m.w : Int)
            · refine ⟨(cx + 1, cy), by simp, ?_⟩
              rw [Mask.inB_set]
              unfold Mask.inB at hin ⊢
              omega
            · refine ⟨(cx - 1, cy), by simp, ?_⟩
              rw [Mask.inB_set]
              unfold Mask.inB at hin ⊢
              omega
          · simp only [List.length_cons] at hfuel ⊢
            omega
        · rw [ffLoop_cons_oob hcap hin]
          refine ih m rest filled hw hz ⟨cw, ?_, hcwin⟩ hle ?_
          · rcases List.mem_cons.1 hcwmem with rfl | hr
            · exact absurd hcwin hin
            · exact hr
          · simp only [List.length_cons] at hfuel
            omega

/-- C10 counterexample: on the all-background 10×10 mask with
`fill_class = 0`, the seed (5,5) already holds the target class, the ring
search reseeds at (6,5), and the loop "fills" 0 over 0 up to the
100000-pixel cap — the call reports success although no pixel's value
changed. -/
theorem C10_cx :
    ¬ ∀ r : Bool × Nat × Mask × List Mask,
        floodFill (zeroMask 10 10) [] 5 5 0 = some r → r.1 = true →
        ∃ a b : Int, (zeroMask 10 10).inB a b ∧
          r.2.2.1.px a b ≠ (zeroMask 10 10).px a b := by
  intro hclaim
  have hsearch : searchBg (zeroMask 10 10) 5 5 = some (6, 5) := by decide
  obtain ⟨m2, hres, hz2⟩ := ffLoop_const_zero 10 (by omega) (floodFuel (zeroMask 10 10))
    (zeroMask 10 10) [(6, 5)] 0 rfl (fun _ _ => rfl)
    ⟨(6, 5), List.mem_cons_self _ _, by decide⟩ (Nat.zero_le _)
    (by
      unfold floodFuel
      simp only [List.length_cons, List.length_nil]
      omega)
  have hflood : floodFill (zeroMask 10 10) [] 5 5 0 =
      some (true, maxFill, m2, saveMaskState [] (zeroMask 10 10)) := by
    unfold floodFill
    rw [if_neg (not_not_intro (by decide : (zeroMask 10 10).inB 5 5)),
      if_pos (show (zeroMask 10 10).px 5 5 = 0 from rfl), hsearch]
    show Option.map (fun res => (decide (0 < res.2), res.2, res.1,
      saveMaskState [] (zeroMask 10 10)))
      (ffLoop 0 0 maxFill (floodFuel (zeroMask 10 10)) (zeroMask 10 10) [(6, 5)] 0) = _
    rw [hres, Option.map_some', decide_eq_true (show 0 < maxFill by unfold maxFill; omega)]
  obtain ⟨a, b, _, hne⟩ := hclaim _ hflood rfl
  exact hne (hz2 a b)

/-- C10 amended: for an in-bounds seed and a nonzero (byte-range)
fill class, flood fill reports success iff at least one pixel's value
changed; in particular, when the seed pixel differs from the fill class,
the seed pixel itself ends up set to the fill class and the call
succeeds.  (With `fill_class = 0` the equivalence fails, see the
counterexample.) -/
theorem C10_success_iff_changed (m : Mask) (hist : List Mask) (x y : Int) (f : Nat)
    (hin : m.inB x y) (hf0 : f ≠ 0) (hf2 : f < 256)
    (r : Bool × Nat × Mask × List Mask) (hr : floodFill m hist x y f = some r) :
    (r.1 = true ↔ ∃ a b : Int, m.inB a b ∧ r.2.2.1.px a b ≠ m.px a b) ∧
    (m.px x y ≠ f → r.1 = true ∧ r.2.2.1.px x y = f) := by
  have hfmod : f % 256 = f := Nat.mod_eq_of_lt hf2
  have hcap0 : ¬ maxFill ≤ 0 := by
    unfold maxFill
    omega
  obtain ⟨fu, hfu⟩ : ∃ fu, floodFuel m = fu + 1 :=
    ⟨floodFuel m - 1, by unfold floodFuel; omega⟩
  unfold floodFill at hr
  rw [if_neg (not_not_intro hin)] at hr
  by_cases hpx : m.px x y = f
  · rw [if_pos hpx] at hr
    split at hr
    · cases hr
      refine ⟨⟨fun h => absurd h (by simp), ?_⟩, fun hne2 => absurd hpx hne2⟩
      rintro ⟨a, b, _, hne⟩
      exact absurd rfl hne
    · rename_i p hsb
      obtain ⟨hpin, hp0⟩ := searchBg_props hsb
      cases hloop : ffLoop 0 f maxFill (floodFuel m) m [p] 0 with
      | none =>
        rw [hloop] at hr
        exact absurd hr (by simp)
      | some res =>
        rw [hloop, Option.map_some'] at hr
        cases hr
        rw [hfu, ffLoop_cons_fill hcap0 hpin hp0] at hloop
        have hge1 : 1 ≤ res.2 := ffLoop_filled_le 0 f maxFill fu _ _ 1 res hloop
        have hstable : res.1.px p.1 p.2 = f % 256 :=
          ffLoop_px_stable 0 f maxFill p.1 p.2 fu _ _ 1 res hloop
            (Mask.px_set_same m p.1 p.2 f)
        have hneq : res.1.px p.1 p.2 ≠ m.px p.1 p.2 := by
          rw [hstable, hfmod, hp0]
          exact hf0
        have hb : decide (0 < res.2) = true := decide_eq_true (by omega)
        exact ⟨⟨fun _ => ⟨p.1, p.2, hpin, hneq⟩, fun _ => hb⟩,
          fun hne2 => absurd hpx hne2⟩
  · rw [if_neg hpx] at hr
    cases hloop : ffLoop (m.px x y) f maxFill (floodFuel m) m [(x, y)] 0 with
    | none =>
      rw [hloop] at hr
      exact absurd hr (by simp)
    | some res =>
      rw [hloop, Option.map_some'] at hr
      cases hr
      rw [hfu, ffLoop_cons_fill hcap0 hin rfl] at hloop
      have hge1 : 1 ≤ res.2 := ffLoop_filled_le _ f maxFill fu _ _ 1 res hloop
      have hstable : res.1.px x y = f % 256 :=
        ffLoop_px_stable _ f maxFill x y fu _ _ 1 res hloop (Mask.px_set_same m x y f)
      have hneq : res.1.px x y ≠ m.px x y := by
        rw [hstable, hfmod]
        exact fun h => hpx h.symm
      have hb : decide (0 < res.2) = true := decide_eq_true (by omega)
      exact ⟨⟨fun _ => ⟨x, y, hin, hneq⟩, fun _ => hb⟩,
        fun _ => ⟨hb, hstable.trans hfmod⟩⟩

/-- Witness for C10 amended on the 1×1 background mask with class 1. -/
theorem C10_success_iff_changed_witness :
    (zeroMask 1 1).inB 0 0 ∧ (1 : Nat) ≠ 0 ∧ (1 : Nat) < 256 ∧
    (((true, 1, Mask.set (zeroMask 1 1) 0 0 1, [zeroMask 1 1]) :
        Bool × Nat × Mask × List Mask).1 = true ↔
      ∃ a b : Int, (zeroMask 1 1).inB a b ∧
        ((true, 1, Mask.set (zeroMask 1 1) 0 0 1, [zeroMask 1 1]) :
          Bool × Nat × Mask × List Mask).2.2.1.px a b ≠ (zeroMask 1 1).px a b) ∧
    ((zeroMask 1 1).px 0 0 ≠ 1 →
      ((true, 1, Mask.set (zeroMask 1 1) 0 0 1, [zeroMask 1 1]) :
        Bool × Nat × Mask × List Mask).1 = true ∧
      ((true, 1, Mask.set (zeroMask 1 1) 0 0 1, [zeroMask 1 1]) :
        Bool × Nat × Mask × List Mask).2.2.1.px 0 0 = 1) := by
  have h := C10_success_iff_changed (zeroMask 1 1) [] 0 0 1 (by decide) (by decide)
    (by decide) (true, 1, Mask.set (zeroMask 1 1) 0 0 1, [zeroMask 1 1]) rfl
  exact ⟨by decide, by decide, by decide, h.1, h.2⟩

end Butterfly
